import Mathlib

/-!
Verification of the inference-model layer of a Gaussian process regression
library (file `mogptk/gpr/model.py`).  Matrices are embedded as `Matrix (Fin n)
(Fin n) ℝ`; the library's linear-algebra primitives are embedded through their
contracts: `torch.linalg.cholesky K` returns a lower-triangular factor `L` with
positive diagonal and `L * Lᵀ = K` (hypotheses on a factor argument),
`torch.linalg.solve_triangular L B` returns `L⁻¹ * B`, and
`torch.cholesky_solve b L` returns `(L * Lᵀ)⁻¹ *ᵥ b`.  A `mean` of `None` is
embedded as the zero mean vector.
-/

open Matrix

/- Mean of the diagonal of a square matrix, as in `K.diagonal().mean()`. -/
noncomputable def meanDiag {n : ℕ} (K : Matrix (Fin n) (Fin n) ℝ) : ℝ :=
  (∑ i, K i i) / n

/- The jitter step of `Model._cholesky`: add `jitter * mean(diag K)` to every
diagonal entry of `K`, once (source line 224). -/
noncomputable def addJitter {n : ℕ} (jitter : ℝ) (K : Matrix (Fin n) (Fin n) ℝ) :
    Matrix (Fin n) (Fin n) ℝ :=
  K + (jitter * meanDiag K) • (1 : Matrix (Fin n) (Fin n) ℝ)

/- Contract of `torch.cholesky_solve(b, L)`: the solution of `(L * Lᵀ) x = b`. -/
noncomputable def choleskySolve {n : ℕ} (L : Matrix (Fin n) (Fin n) ℝ) (b : Fin n → ℝ) :
    Fin n → ℝ :=
  (L * Lᵀ)⁻¹ *ᵥ b

/- Contract of `torch.linalg.solve_triangular(L, B, upper=False)`. -/
noncomputable def solveTri {m n : ℕ} (L : Matrix (Fin m) (Fin m) ℝ)
    (B : Matrix (Fin m) (Fin n) ℝ) : Matrix (Fin m) (Fin n) ℝ :=
  L⁻¹ * B

/- Lower-triangular shape of a Cholesky factor. -/
def lowerTriangular {n : ℕ} (L : Matrix (Fin n) (Fin n) ℝ) : Prop :=
  ∀ i j : Fin n, i < j → L i j = 0

/- `Exact.log_marginal_likelihood` (source lines 358-374), as a function of the
Cholesky factor `L` of the noised and jittered kernel matrix, the data `y` and
the mean-function values `meanv` at the training inputs (zero when no mean):
`-0.5 n log(2π) - Σ log diag L - 0.5 yᵀ cholesky_solve(y, L)`. -/
noncomputable def exactLML (n : ℕ) (L : Matrix (Fin n) (Fin n) ℝ) (y meanv : Fin n → ℝ) : ℝ :=
  let y2 := y - meanv;
  -(0.5 * n * Real.log (2 * Real.pi)) - (∑ i, Real.log (L i i))
    - 0.5 * (y2 ⬝ᵥ choleskySolve L y2)

/- The closed-form Gaussian log evidence of the spec:
`-0.5 vᵀ M⁻¹ v - 0.5 log det M - 0.5 n log(2π)`. -/
noncomputable def gaussLogEvidence (n : ℕ) (M : Matrix (Fin n) (Fin n) ℝ) (v : Fin n → ℝ) : ℝ :=
  -(0.5 * (v ⬝ᵥ (M⁻¹ *ᵥ v))) - 0.5 * Real.log M.det - 0.5 * n * Real.log (2 * Real.pi)

/- `Titsias.elbo` (source lines 657-681) as a function of the factors produced
by the two `_cholesky` calls: `Luu` factors the jittered `Kuu` and `L` factors
`Q / σ² + I` where `Q = v vᵀ`, `v = solve_triangular(Luu, Kuf)`.  `s` is the
Gaussian noise variance `likelihood.scale()`, `KffDiag` is `kernel.K_diag(X)`,
`y` the data and `meanv` the mean-function values (zero when no mean). -/
noncomputable def titsiasELBO (n m : ℕ) (KffDiag : Fin n → ℝ)
    (Kuf : Matrix (Fin m) (Fin n) ℝ) (Luu L : Matrix (Fin m) (Fin m) ℝ)
    (s : ℝ) (y meanv : Fin n → ℝ) : ℝ :=
  let y2 := y - meanv;
  let v := solveTri Luu Kuf;
  let Q := v * vᵀ;
  let c := s⁻¹ • (L⁻¹ *ᵥ (v *ᵥ y2));
  -(0.5 * n * Real.log (2 * Real.pi)) - (∑ i, Real.log (L i i))
    - 0.5 * n * Real.log s - 0.5 * (y2 ⬝ᵥ y2) / s + 0.5 * (c ⬝ᵥ c)
    - 0.5 * ((∑ i, KffDiag i) - Q.trace) / s

/- A Parameter as seen by `Model.log_prior`: a trainability flag and an
optional prior. -/
structure PriorParam where
  trainable : Bool
  logPriorDensity : Option ℝ

/-- Modelled from the spec: `Parameter.log_prior` lives in the parameter module
that is not part of the provided sources.  Per the spec a Parameter carries an
optional prior and contributes its log-prior density, zero if it has no
prior. -/
def paramLogPrior (p : PriorParam) : ℝ :=
  p.logPriorDensity.getD 0

/- `Model.log_prior` (source lines 248-257): the sum over every Parameter in
`self._params`, with no trainability filter. -/
def modelLogPrior (ps : List PriorParam) : ℝ :=
  (ps.map paramLogPrior).sum

/- The accumulation described by the spec's words: the sum of each trainable
Parameter's log-prior density. -/
def specTrainableLogPrior (ps : List PriorParam) : ℝ :=
  ((ps.filter fun p => p.trainable).map paramLogPrior).sum

/- The structured error raised by `Model._cholesky` (source lines 32-39,
222-235): it carries a message, the offending matrix and a reference to the
model. -/
structure CholeskyError (n : ℕ) (M : Type) where
  message : String
  K : Matrix (Fin n) (Fin n) ℝ
  model : M

/- `Model._cholesky` (source lines 222-235).  The numeric factorization
`torch.linalg.cholesky` is abstracted as a function `chol` returning `none` on
failure; it is applied exactly once, to the singly-jittered matrix, and a
failure is converted into the structured error without any retry. -/
noncomputable def modelCholesky {n : ℕ} {M : Type} (model : M) (jitter : ℝ)
    (chol : Matrix (Fin n) (Fin n) ℝ → Option (Matrix (Fin n) (Fin n) ℝ))
    (K : Matrix (Fin n) (Fin n) ℝ) (addJitterFlag : Bool) :
    Except (CholeskyError n M) (Matrix (Fin n) (Fin n) ℝ) :=
  let K2 := if addJitterFlag then addJitter jitter K else K;
  match chol K2 with
  | some L => .ok L
  | none => .error ⟨("cholesky: input matrix is not positive-definite"), K2, model⟩

/- Shape promotion of `X` in `Model._check_input` (source lines 91-98): a
shape is the list of array dimensions; rank 0 becomes `(1,1)`, rank 1 becomes
`(n,1)`, rank 2 stays, higher rank is an error. -/
def promoteShape : List ℕ → Except String (ℕ × ℕ)
  | [] => .ok (1, 1)
  | [n] => .ok (n, 1)
  | [r, c] => .ok (r, c)
  | _ => .error ("X must have dimensions (data_points,input_dims) with input_dims optional")

/- Shape promotion of `y` in `Model._check_input` (source lines 105-110): rank
2 additionally requires exactly one column. -/
def promoteYShape : List ℕ → Except String (ℕ × ℕ)
  | [] => .ok (1, 1)
  | [n] => .ok (n, 1)
  | [r, c] => if c = 1 then .ok (r, c) else .error ("y must have one dimension (data_points,)")
  | _ => .error ("y must have one dimension (data_points,)")

/- `Model._check_input` (source lines 86-118) at the level of array shapes.
With `y` given it validates training data; with `y = none` it validates a
prediction query against `inputDims` fixed at construction. -/
def checkInput (xshape : List ℕ) (yshape : Option (List ℕ)) (inputDims : ℕ) :
    Except String ((ℕ × ℕ) × Option (ℕ × ℕ)) :=
  match promoteShape xshape with
  | .error e => .error e
  | .ok x =>
    if x.1 = 0 ∨ x.2 = 0 then .error ("X must not be empty")
    else
      match yshape with
      | some ys =>
        match promoteYShape ys with
        | .error e => .error e
        | .ok yv =>
          if x.1 ≠ yv.1 then .error ("number of data points for X and y must match")
          else .ok (x, some yv)
      | none =>
        if x.2 ≠ inputDims then .error ("X must have input_dims input dimensions")
        else .ok (x, none)

/- `Exact.predict` (source lines 376-417), diagonal-variance path.  The guard
on line 377 comes first, before the query validation and any computation.
`KffNoise` is the kernel matrix with the noise term already added (lines
387-391), `scaleXs` the broadcast noise variance at the query points and
`meanX`/`meanXs` the mean-function values (zero when no mean). -/
noncomputable def exactPredict (n k : ℕ) (variancePerData predictY : Bool)
    (xsCols inputDims : ℕ) (KffNoise : Matrix (Fin n) (Fin n) ℝ) (jitter : ℝ)
    (Kfs : Matrix (Fin n) (Fin k) ℝ) (KssDiag : Fin k → ℝ) (scaleXs : Fin k → ℝ)
    (y meanX : Fin n → ℝ) (meanXs : Fin k → ℝ) :
    Except String ((Fin k → ℝ) × (Fin k → ℝ)) :=
  if variancePerData ∧ predictY then
    .error ("can only predict function values when data point variances are given, set predict_y=False")
  else if xsCols ≠ inputDims then .error ("X must have input_dims input dimensions")
  else
    let K2 := addJitter jitter KffNoise;
    let y2 := y - meanX;
    let mu := fun i => (Kfsᵀ *ᵥ ((K2)⁻¹ *ᵥ y2)) i + meanXs i;
    let varDiag := fun i =>
      KssDiag i - (Kfsᵀ * (K2)⁻¹ * Kfs) i i + (if predictY then scaleXs i else 0);
    .ok (mu, varDiag)

/- A model attribute value: either a Parameter or any other value. -/
inductive AttrVal (P V : Type) where
  | param (p : P)
  | plain (v : V)

/- The mutable attribute table and parameter registry of a model object. -/
structure ObjState (P V : Type) where
  attrs : String → Option (AttrVal P V)
  registry : List P

/- The test performed by `Model.__setattr__` (source line 82):
`hasattr(self, name) and isinstance(getattr(self, name), Parameter)`. -/
def holdsParameter {P V : Type} (s : ObjState P V) (nm : String) : Bool :=
  match s.attrs nm with
  | some (AttrVal.param _) => true
  | _ => false

/- `Model.__setattr__` (source lines 81-84): refuse to overwrite an attribute
currently holding a Parameter, otherwise store the new value.  The error case
produces no new state, so the attribute table and registry are untouched. -/
def modelSetattr {P V : Type} (s : ObjState P V) (nm : String) (v : AttrVal P V) :
    Except String (ObjState P V) :=
  if holdsParameter s nm then .error ("parameter is read-only, use Parameter.assign()")
  else .ok ⟨fun k => if k = nm then some v else s.attrs k, s.registry⟩

/- Local names bound on the path through `Snelson.predict` before the full
covariance expression on source line 507 (transcribed from lines 479-506). -/
def snelsonPredictLocalNames : List String :=
  ["Xs", "y", "Kff_diag", "Kuf", "Kuu", "Kus", "Luu", "v", "g", "G", "L", "a", "b", "c",
   "mu", "Kss"]

/- Local names read by the expression `Kss - a.T.mm(w) + b.T.mm(u)` on source
line 507. -/
def snelsonFullCovReads : List String :=
  ["Kss", "a", "w", "b", "u"]

/- Python name resolution for the full-covariance branch: every name read must
be bound. -/
def namesResolve (boundNames reads : List String) : Bool :=
  reads.all fun nm => boundNames.contains nm

/- `Snelson.predict` (source lines 478-521) as a function of the Cholesky
factors `Luu` (of the jittered `Kuu`) and `L` (of `v G vᵀ + I`).  The
full-covariance branch evaluates an expression reading the unbound names `w`
and `u`, which in Python raises a NameError; the `.ok` arm of that branch is
therefore unreachable and its variance component is left as the zero
function. -/
noncomputable def snelsonPredict (n mInd k : ℕ) (full predictY : Bool)
    (KffDiag : Fin n → ℝ) (Kuf : Matrix (Fin mInd) (Fin n) ℝ)
    (Kus : Matrix (Fin mInd) (Fin k) ℝ) (KssDiag : Fin k → ℝ)
    (Luu L : Matrix (Fin mInd) (Fin mInd) ℝ) (scaleX : Fin n → ℝ) (scaleXs : Fin k → ℝ)
    (y meanX : Fin n → ℝ) (meanXs : Fin k → ℝ) :
    Except String ((Fin k → ℝ) × (Fin k → ℝ)) :=
  let y2 : Fin n → ℝ := y - meanX;
  let v : Matrix (Fin mInd) (Fin n) ℝ := solveTri Luu Kuf;
  let g : Fin n → ℝ := fun i => KffDiag i - (vᵀ * v) i i + scaleX i;
  let G : Matrix (Fin n) (Fin n) ℝ := Matrix.diagonal fun i => (g i)⁻¹;
  let a : Matrix (Fin mInd) (Fin k) ℝ := solveTri Luu Kus;
  let b : Matrix (Fin mInd) (Fin k) ℝ := solveTri L a;
  let c : Fin mInd → ℝ := L⁻¹ *ᵥ ((v * G) *ᵥ y2);
  let mu : Fin k → ℝ := fun i => (bᵀ *ᵥ c) i + meanXs i;
  if full then
    if namesResolve snelsonPredictLocalNames snelsonFullCovReads then
      .ok (mu, fun _ => 0)
    else
      .error ("NameError: name w is not defined")
  else
    let varDiag : Fin k → ℝ := fun i =>
      KssDiag i - (aᵀ * a) i i + (bᵀ * b) i i + (if predictY then scaleXs i else 0);
    .ok (mu, varDiag)

/- Matrices and vectors with unbounded index, used for the structural
SparseHensman embedding; only entries below the recorded dimensions are
meaningful. -/
def NMat : Type := ℕ → ℕ → ℝ

def NVec : Type := ℕ → ℝ

noncomputable def nmatId : NMat := fun i j => if i = j then 1 else 0

noncomputable def nmatTr (A : NMat) : NMat := fun i j => A j i

/- `torch.Tensor.tril()`. -/
noncomputable def nmatTril (A : NMat) : NMat := fun i j => if j ≤ i then A i j else 0

noncomputable def nmatMul (k : ℕ) (A B : NMat) : NMat :=
  fun i j => ∑ t ∈ Finset.range k, A i t * B t j

noncomputable def nmatVec (k : ℕ) (A : NMat) (x : NVec) : NVec :=
  fun i => ∑ t ∈ Finset.range k, A i t * x t

/- The jitter step of `Model._cholesky` on unbounded-index matrices. -/
noncomputable def nmatAddJitter (k : ℕ) (jitter : ℝ) (A : NMat) : NMat :=
  fun i j => A i j + if i = j then jitter * ((∑ t ∈ Finset.range k, A t t) / k) else 0

/- A Parameter as seen by the registry: its name (assigned by
`_register_parameters`) and its trainability. -/
structure PRec where
  pname : Option String
  trainable : Bool
deriving DecidableEq

def qmuRec : PRec := ⟨some "q_mu", true⟩

def qsqrtRec : PRec := ⟨some "q_sqrt", true⟩

def inducingRec : PRec := ⟨some "induction_points", true⟩

/- The `Z` Parameter of the non-sparse branch: `Parameter(self.X,
trainable=False)` with no name (source line 772). -/
def pinnedZRec : PRec := ⟨none, false⟩

/- The state built by `SparseHensman.__init__` (source lines 751-777):
inducing count `m`, the sparse flag, the `Z` Parameter and its registry
record, the variational parameters `q_mu = 0` and `q_sqrt = I`, and the list
of Parameters the constructor registers beyond those of the kernel,
likelihood and mean. -/
structure SHState where
  nData : ℕ
  m : ℕ
  isSparse : Bool
  Z : NMat
  ZParam : PRec
  qmu : NVec
  qsqrt : NMat
  registered : List PRec

/- `SparseHensman.__init__` (source lines 751-777).  `Zopt` is the inducing
input: `none` forces the non-sparse branch with `n` the number of data points
and `Z` a non-trainable Parameter bound to `X`; `some (k, Zm)` is an explicit
set of `k` inducing points, registered under the name `induction_points`.
`q_mu` and `q_sqrt` are registered in both branches (lines 774-777). -/
noncomputable def sparseHensmanInit (nData : ℕ) (X : NMat) (Zopt : Option (ℕ × NMat)) : SHState :=
  match Zopt with
  | some (k, Zm) =>
    ⟨nData, k, true, Zm, inducingRec, fun _ => 0, nmatId, [qmuRec, qsqrtRec, inducingRec]⟩
  | none =>
    ⟨nData, nData, false, X, pinnedZRec, fun _ => 0, nmatId, [qmuRec, qsqrtRec]⟩

/- `Hensman.__init__` (source lines 862-864): the call
`super().__init__(kernel, X, y, None, likelihood, jitter, mean, name)`. -/
noncomputable def hensmanInit (nData : ℕ) (X : NMat) : SHState :=
  sparseHensmanInit nData X none

/- `Model.get_parameters` (source lines 164-171): the whole registry, here the
base Parameters of kernel/likelihood/mean followed by those the variant
registered. -/
def modelGetParameters (base : List PRec) (st : SHState) : List PRec :=
  base ++ st.registered

/- `Model.parameters` (source lines 153-162): only the trainable ones. -/
def modelParameters (base : List PRec) (st : SHState) : List PRec :=
  (modelGetParameters base st).filter fun p => p.trainable

/- `SparseHensman.kl_gaussian` (source lines 779-785). -/
noncomputable def klGaussian (m : ℕ) (qmu : NVec) (qsqrt : NMat) : ℝ :=
  let Sdiag : NVec := fun i => (qsqrt i i) ^ 2;
  0.5 * (-(m : ℝ) + (∑ i ∈ Finset.range m, qmu i * qmu i)
    - (∑ i ∈ Finset.range m, Real.log (Sdiag i)) + ∑ i ∈ Finset.range m, Sdiag i)

/- `SparseHensman._predict` (source lines 814-830), diagonal path, as a
function of the inducing data `(m, Z, qmu, qsqrt)`.  The kernel, its diagonal,
the factorization and the triangular solvers (matrix right-hand side
`triSolve`, vector right-hand side `triSolveV`) are abstract capabilities. -/
noncomputable def shPredictRawAt (m : ℕ) (Z : NMat) (qmu : NVec) (qsqrt : NMat)
    (kern : ℕ → ℕ → NMat → NMat → NMat) (kernDiag : ℕ → NMat → NVec)
    (cholFn : ℕ → NMat → NMat) (triSolve : ℕ → NMat → NMat → NMat)
    (triSolveV : ℕ → NMat → NVec → NVec)
    (jitter : ℝ) (sXs : ℕ) (Xs : NMat) : NVec × NVec :=
  let Kuu := kern m m Z Z;
  let Kus := kern m sXs Z Xs;
  let Luu := cholFn m (nmatAddJitter m jitter Kuu);
  let a := triSolve m Luu Kus;
  let b := nmatMul m (nmatTr (nmatTril qsqrt)) (triSolve m Luu Kus);
  let mu : NVec := nmatVec m (nmatTr Kus) (triSolveV m (nmatTr Luu) qmu);
  let varDiag : NVec := fun i =>
    kernDiag sXs Xs i - nmatMul m (nmatTr a) a i i + nmatMul m (nmatTr b) b i i;
  (mu, varDiag)

noncomputable def shPredictRaw (st : SHState)
    (kern : ℕ → ℕ → NMat → NMat → NMat) (kernDiag : ℕ → NMat → NVec)
    (cholFn : ℕ → NMat → NMat) (triSolve : ℕ → NMat → NMat → NMat)
    (triSolveV : ℕ → NMat → NVec → NVec)
    (jitter : ℝ) (sXs : ℕ) (Xs : NMat) : NVec × NVec :=
  shPredictRawAt st.m st.Z st.qmu st.qsqrt kern kernDiag cholFn triSolve triSolveV jitter sXs Xs

/- The non-sparse branch of `SparseHensman.elbo` (source lines 796-804) as a
standalone function of the data count and the variational parameters. -/
noncomputable def shElboNonSparse (nData : ℕ) (qmu : NVec) (qsqrt : NMat)
    (kern : ℕ → ℕ → NMat → NMat → NMat) (cholFn : ℕ → NMat → NMat)
    (varExp : NVec → NVec → NVec → ℝ) (jitter : ℝ) (X : NMat) (y meanv : NVec) : ℝ :=
  let y2 : NVec := fun i => y i - meanv i;
  let Kff := kern nData nData X X;
  let Lff := cholFn nData (nmatAddJitter nData jitter Kff);
  let qfmu : NVec := fun i => nmatVec nData Lff qmu i - meanv i;
  let qfsqrt := nmatMul nData Lff (nmatTril qsqrt);
  let qfvar : NVec := fun i => nmatMul nData qfsqrt (nmatTr qfsqrt) i i;
  varExp y2 qfmu qfvar - klGaussian nData qmu qsqrt

/- `SparseHensman.elbo` (source lines 787-808): the sparse branch goes through
`_predict` at the training inputs, the non-sparse branch pushes `q_mu` and
`q_sqrt` through the factor of the jittered `Kff`.  `varExp` is the
likelihood's `variational_expectation` capability. -/
noncomputable def shElbo (st : SHState)
    (kern : ℕ → ℕ → NMat → NMat → NMat) (kernDiag : ℕ → NMat → NVec)
    (cholFn : ℕ → NMat → NMat) (triSolve : ℕ → NMat → NMat → NMat)
    (triSolveV : ℕ → NMat → NVec → NVec)
    (varExp : NVec → NVec → NVec → ℝ) (jitter : ℝ) (X : NMat) (y meanv : NVec) : ℝ :=
  let y2 : NVec := fun i => y i - meanv i;
  if st.isSparse then
    let qf := shPredictRaw st kern kernDiag cholFn triSolve triSolveV jitter st.nData X;
    varExp y2 qf.1 qf.2 - klGaussian st.m st.qmu st.qsqrt
  else
    shElboNonSparse st.nData st.qmu st.qsqrt kern cholFn varExp jitter X y meanv

/- `SparseHensman.predict` (source lines 832-845): `_predict` at the query
points, the likelihood's `predict` transform when `predict_y`, then the mean
function values are added. -/
noncomputable def shPredict (st : SHState)
    (kern : ℕ → ℕ → NMat → NMat → NMat) (kernDiag : ℕ → NMat → NVec)
    (cholFn : ℕ → NMat → NMat) (triSolve : ℕ → NMat → NMat → NMat)
    (triSolveV : ℕ → NMat → NVec → NVec)
    (likPredict : NVec → NVec → NVec × NVec) (predictY : Bool)
    (jitter : ℝ) (sXs : ℕ) (Xs : NMat) (meanXs : NVec) : NVec × NVec :=
  let p := shPredictRaw st kern kernDiag cholFn triSolve triSolveV jitter sXs Xs;
  let p2 := if predictY then likPredict p.1 p.2 else p;
  (fun i => p2.1 i + meanXs i, p2.2)

-- THEOREMS

/-- Claim C3, counterexample: `Model.log_prior` sums over every Parameter in
the registry, so a single non-trainable Parameter with a nonzero log-prior
density already contributes, contradicting the claim that non-trainable
Parameters contribute nothing. -/
theorem log_prior_counts_nontrainable :
    modelLogPrior [⟨false, some 1⟩] ≠ specTrainableLogPrior [⟨false, some 1⟩] := by
  simp [modelLogPrior, specTrainableLogPrior, paramLogPrior]

/-- Claim C3 (amended): `Model.log_prior` returns the sum of the log-prior
densities of all Parameters in the registry, trainable or not (each
contributing zero when it has no prior); it splits as the trainable-only sum
plus the non-trainable contributions. -/
theorem log_prior_sum_split (ps : List PriorParam) :
    modelLogPrior ps =
      specTrainableLogPrior ps + ((ps.filter fun p => !p.trainable).map paramLogPrior).sum := by
  induction ps with
  | nil => simp [modelLogPrior, specTrainableLogPrior]
  | cons p t ih =>
    cases hp : p.trainable <;>
      simp only [modelLogPrior, specTrainableLogPrior, List.filter_cons, hp, List.map_cons,
        List.sum_cons, if_pos, if_neg, Bool.not_true, Bool.not_false, ite_true, ite_false,
        Bool.false_eq_true, not_false_eq_true] <;>
      simp only [modelLogPrior, specTrainableLogPrior] at ih <;> linarith

/-- Claim C4: `Model._cholesky` with `add_jitter=True` adds exactly
`jitter * mean(diag K)` to each diagonal entry of `K`, exactly once, leaving
off-diagonal entries unchanged; when the factorization fails it produces the
structured `CholeskyException` carrying the (jittered) offending matrix and
the model reference, without re-invoking the factorization; when it succeeds
it returns the factor. -/
theorem cholesky_jitter_once_and_structured_error :
    (∀ (n : ℕ) (j : ℝ) (K : Matrix (Fin n) (Fin n) ℝ) (i : Fin n),
      (addJitter j K) i i = K i i + j * meanDiag K) ∧
    (∀ (n : ℕ) (j : ℝ) (K : Matrix (Fin n) (Fin n) ℝ) (i k : Fin n), i ≠ k →
      (addJitter j K) i k = K i k) ∧
    (∀ (n : ℕ) (M : Type) (model : M) (j : ℝ)
      (chol : Matrix (Fin n) (Fin n) ℝ → Option (Matrix (Fin n) (Fin n) ℝ))
      (K : Matrix (Fin n) (Fin n) ℝ), chol (addJitter j K) = none →
      modelCholesky model j chol K true =
        .error ⟨("cholesky: input matrix is not positive-definite"), addJitter j K, model⟩) ∧
    (∀ (n : ℕ) (M : Type) (model : M) (j : ℝ)
      (chol : Matrix (Fin n) (Fin n) ℝ → Option (Matrix (Fin n) (Fin n) ℝ))
      (K L0 : Matrix (Fin n) (Fin n) ℝ), chol (addJitter j K) = some L0 →
      modelCholesky model j chol K true = .ok L0) := by
  refine ⟨?_, ?_, ?_, ?_⟩
  · intro n j K i
    simp [addJitter, Matrix.add_apply, Matrix.smul_apply, Matrix.one_apply]
  · intro n j K i k hik
    simp [addJitter, Matrix.add_apply, Matrix.smul_apply, Matrix.one_apply, hik]
  · intro n M model j chol K h
    simp [modelCholesky, h]
  · intro n M model j chol K L0 h
    simp [modelCholesky, h]

/-- Claim C4, witness: the theorem applied at a concrete 1x1 matrix, a failing
factorizer and a concrete model reference. -/
theorem cholesky_jitter_once_and_structured_error_witness :
    (addJitter 2 !![(3 : ℝ)]) 0 0 = 3 + 2 * meanDiag !![(3 : ℝ)] ∧
    modelCholesky (0 : ℕ) 2 (fun _ => none) !![(3 : ℝ)] true =
      .error ⟨("cholesky: input matrix is not positive-definite"),
        addJitter 2 !![(3 : ℝ)], (0 : ℕ)⟩ :=
  ⟨cholesky_jitter_once_and_structured_error.1 1 2 !![(3 : ℝ)] 0,
   cholesky_jitter_once_and_structured_error.2.2.1 1 ℕ 0 2 (fun _ => none) !![(3 : ℝ)] rfl⟩

/-- Claim C5: `Model._check_input` treats a rank-1 `X` exactly as the
`(n,1)`-reshaped rank-2 input; a rank above 2 is a shape error; zero rows or
zero columns is an error; with `y` supplied the call succeeds precisely when
the row counts agree and `y` has one column after rank-1 promotion; with `y`
omitted it succeeds precisely when the column count equals the input
dimensionality fixed at construction. -/
theorem check_input_spec :
    (∀ (n : ℕ) (ys : Option (List ℕ)) (d : ℕ), checkInput [n] ys d = checkInput [n, 1] ys d) ∧
    (∀ (s : List ℕ) (ys : Option (List ℕ)) (d : ℕ), 2 < s.length →
      checkInput s ys d =
        .error ("X must have dimensions (data_points,input_dims) with input_dims optional")) ∧
    (∀ (r c : ℕ) (ys : Option (List ℕ)) (d : ℕ), r = 0 ∨ c = 0 →
      checkInput [r, c] ys d = .error ("X must not be empty")) ∧
    (∀ (r c yr yc d : ℕ), 0 < r → 0 < c →
      ((∃ res, checkInput [r, c] (some [yr, yc]) d = .ok res) ↔ (yc = 1 ∧ r = yr))) ∧
    (∀ (r c yr d : ℕ), 0 < r → 0 < c →
      ((∃ res, checkInput [r, c] (some [yr]) d = .ok res) ↔ r = yr)) ∧
    (∀ (r c d : ℕ), 0 < r → 0 < c →
      ((∃ res, checkInput [r, c] none d = .ok res) ↔ c = d)) := by
  refine ⟨?_, ?_, ?_, ?_, ?_, ?_⟩
  · intro n ys d
    rfl
  · intro s ys d h
    match s with
    | [] => simp at h
    | [a] => simp at h
    | [a, b] => simp at h
    | a :: b :: c :: t => rfl
  · intro r c ys d h
    rcases h with h | h <;> subst h <;> simp [checkInput, promoteShape]
  · intro r c yr yc d hr hc
    by_cases hyc : yc = 1
    · subst hyc
      by_cases hryr : r = yr
      · subst hryr
        simp [checkInput, promoteShape, promoteYShape, hr.ne', hc.ne']
      · simp [checkInput, promoteShape, promoteYShape, hryr, hr.ne', hc.ne']
    · by_cases hryr : r = yr
      · subst hryr
        simp [checkInput, promoteShape, promoteYShape, hyc, hr.ne', hc.ne']
      · simp [checkInput, promoteShape, promoteYShape, hyc, hryr, hr.ne', hc.ne']
  · intro r c yr d hr hc
    by_cases hryr : r = yr
    · subst hryr
      simp [checkInput, promoteShape, promoteYShape, hr.ne', hc.ne']
    · simp [checkInput, promoteShape, promoteYShape, hryr, hr.ne', hc.ne']
  · intro r c d hr hc
    by_cases hcd : c = d
    · subst hcd
      simp [checkInput, promoteShape, hr.ne', hc.ne']
    · simp [checkInput, promoteShape, hcd, hr.ne', hc.ne']

/-- Claim C5, witness: the theorem applied at concrete shapes: a rank-1 input
of five points, a rank-3 input, an empty input, a matching and a mismatching
training pair, and a prediction query. -/
theorem check_input_spec_witness :
    checkInput [5] none 1 = checkInput [5, 1] none 1 ∧
    checkInput [2, 2, 2] none 1 =
      .error ("X must have dimensions (data_points,input_dims) with input_dims optional") ∧
    checkInput [0, 3] none 1 = .error ("X must not be empty") ∧
    ((∃ res, checkInput [4, 1] (some [4, 1]) 9 = .ok res) ↔ ((1 : ℕ) = 1 ∧ (4 : ℕ) = 4)) ∧
    ((∃ res, checkInput [4, 2] (some [7]) 9 = .ok res) ↔ (4 : ℕ) = 7) ∧
    ((∃ res, checkInput [4, 2] none 2 = .ok res) ↔ (2 : ℕ) = 2) :=
  ⟨check_input_spec.1 5 none 1,
   check_input_spec.2.1 [2, 2, 2] none 1 (by decide),
   check_input_spec.2.2.1 0 3 none 1 (Or.inl rfl),
   check_input_spec.2.2.2.1 4 1 4 1 9 (by decide) (by decide),
   check_input_spec.2.2.2.2.1 4 2 7 9 (by decide) (by decide),
   check_input_spec.2.2.2.2.2 4 2 2 (by decide) (by decide)⟩

/-- Claim C6: for an `Exact` model with per-data-point fixed variances, any
`predict` call with `predict_y=True` fails with the usage error regardless of
every other argument (the guard runs before validation and before any
computation), while the same call with `predict_y=False` succeeds whenever the
query has the right number of columns. -/
theorem exact_predict_variance_per_data_guard :
    (∀ (n k : ℕ) (xsCols inputDims : ℕ) (KffNoise : Matrix (Fin n) (Fin n) ℝ) (jitter : ℝ)
      (Kfs : Matrix (Fin n) (Fin k) ℝ) (KssDiag scaleXs : Fin k → ℝ)
      (y meanX : Fin n → ℝ) (meanXs : Fin k → ℝ),
      exactPredict n k true true xsCols inputDims KffNoise jitter Kfs KssDiag scaleXs y meanX meanXs =
        .error ("can only predict function values when data point variances are given, set predict_y=False")) ∧
    (∀ (n k : ℕ) (xsCols inputDims : ℕ) (KffNoise : Matrix (Fin n) (Fin n) ℝ) (jitter : ℝ)
      (Kfs : Matrix (Fin n) (Fin k) ℝ) (KssDiag scaleXs : Fin k → ℝ)
      (y meanX : Fin n → ℝ) (meanXs : Fin k → ℝ), xsCols = inputDims →
      ∃ r, exactPredict n k true false xsCols inputDims KffNoise jitter Kfs KssDiag scaleXs y meanX meanXs =
        .ok r) := by
  constructor
  · intro n k xsCols inputDims KffNoise jitter Kfs KssDiag scaleXs y meanX meanXs
    simp [exactPredict]
  · intro n k xsCols inputDims KffNoise jitter Kfs KssDiag scaleXs y meanX meanXs h
    subst h
    cases h2 : exactPredict n k true false xsCols xsCols KffNoise jitter Kfs KssDiag scaleXs y meanX meanXs with
    | error e => simp [exactPredict] at h2
    | ok r => exact ⟨r, rfl⟩

/-- Claim C6, witness: the theorem applied at a concrete one-point model and
query. -/
theorem exact_predict_variance_per_data_guard_witness :
    exactPredict 1 1 true true 3 1 !![(1 : ℝ)] 0 !![(1 : ℝ)] 0 0 0 0 0 =
      .error ("can only predict function values when data point variances are given, set predict_y=False") ∧
    ∃ r, exactPredict 1 1 true false 1 1 !![(1 : ℝ)] 0 !![(1 : ℝ)] 0 0 0 0 0 = .ok r :=
  ⟨exact_predict_variance_per_data_guard.1 1 1 3 1 !![(1 : ℝ)] 0 !![(1 : ℝ)] 0 0 0 0 0,
   exact_predict_variance_per_data_guard.2 1 1 1 1 !![(1 : ℝ)] 0 !![(1 : ℝ)] 0 0 0 0 0 rfl⟩

/-- Claim C7: once a model attribute holds a Parameter, any later assignment
to that same name fails with the read-only error and produces no new state (so
the attribute table and the registry are unchanged); assignment to a name not
currently holding a Parameter succeeds, updates exactly that name, and leaves
the registry and every other attribute unchanged. -/
theorem setattr_parameter_write_protection :
    (∀ (P V : Type) (s : ObjState P V) (nm : String) (v : AttrVal P V) (p : P),
      s.attrs nm = some (AttrVal.param p) →
      modelSetattr s nm v = .error ("parameter is read-only, use Parameter.assign()")) ∧
    (∀ (P V : Type) (s : ObjState P V) (nm : String) (v : AttrVal P V),
      holdsParameter s nm = false →
      ∃ s2, modelSetattr s nm v = .ok s2 ∧ s2.attrs nm = some v ∧
        s2.registry = s.registry ∧ ∀ k, k ≠ nm → s2.attrs k = s.attrs k) := by
  constructor
  · intro P V s nm v p h
    simp [modelSetattr, holdsParameter, h]
  · intro P V s nm v h
    refine ⟨⟨fun k => if k = nm then some v else s.attrs k, s.registry⟩, ?_, ?_, rfl, ?_⟩
    · simp [modelSetattr, h]
    · simp
    · intro k hk
      simp [hk]

/-- Claim C7, witness: the theorem applied at a concrete state holding one
Parameter attribute. -/
theorem setattr_parameter_write_protection_witness :
    modelSetattr (⟨fun k => if k = "kernel_magnitude" then some (AttrVal.param 5) else none, [5]⟩ :
        ObjState ℕ ℕ) "kernel_magnitude" (AttrVal.plain 7) =
      .error ("parameter is read-only, use Parameter.assign()") ∧
    ∃ s2, modelSetattr (⟨fun k => if k = "kernel_magnitude" then some (AttrVal.param 5) else none, [5]⟩ :
        ObjState ℕ ℕ) "name" (AttrVal.plain 7) = .ok s2 ∧
      s2.attrs "name" = some (AttrVal.plain 7) ∧ s2.registry = [5] ∧
      ∀ k, k ≠ "name" → s2.attrs k =
        (if k = "kernel_magnitude" then some (AttrVal.param 5) else none) :=
  ⟨setattr_parameter_write_protection.1 ℕ ℕ _ "kernel_magnitude" (AttrVal.plain 7) 5 (by simp),
   setattr_parameter_write_protection.2 ℕ ℕ _ "name" (AttrVal.plain 7) (by simp [holdsParameter])⟩

/-- Claim C8: the full-covariance branch of `Snelson.predict` reads the local
names `w` and `u` that are bound nowhere on that path, so every call with
`full=True` fails with an undefined-name error and never returns a covariance,
while `full=False` never takes that branch and returns the mean and diagonal
variance. -/
theorem snelson_predict_full_undefined_names :
    (∀ (n mInd k : ℕ) (predictY : Bool) (KffDiag : Fin n → ℝ)
      (Kuf : Matrix (Fin mInd) (Fin n) ℝ) (Kus : Matrix (Fin mInd) (Fin k) ℝ)
      (KssDiag : Fin k → ℝ) (Luu L : Matrix (Fin mInd) (Fin mInd) ℝ)
      (scaleX : Fin n → ℝ) (scaleXs : Fin k → ℝ) (y meanX : Fin n → ℝ) (meanXs : Fin k → ℝ),
      snelsonPredict n mInd k true predictY KffDiag Kuf Kus KssDiag Luu L scaleX scaleXs y meanX meanXs =
        .error ("NameError: name w is not defined")) ∧
    (∀ (n mInd k : ℕ) (predictY : Bool) (KffDiag : Fin n → ℝ)
      (Kuf : Matrix (Fin mInd) (Fin n) ℝ) (Kus : Matrix (Fin mInd) (Fin k) ℝ)
      (KssDiag : Fin k → ℝ) (Luu L : Matrix (Fin mInd) (Fin mInd) ℝ)
      (scaleX : Fin n → ℝ) (scaleXs : Fin k → ℝ) (y meanX : Fin n → ℝ) (meanXs : Fin k → ℝ),
      ∃ r, snelsonPredict n mInd k false predictY KffDiag Kuf Kus KssDiag Luu L scaleX scaleXs y meanX meanXs =
        .ok r) := by
  have hres : namesResolve snelsonPredictLocalNames snelsonFullCovReads = false := by
    decide
  constructor
  · intro n mInd k predictY KffDiag Kuf Kus KssDiag Luu L scaleX scaleXs y meanX meanXs
    simp [snelsonPredict, hres]
  · intro n mInd k predictY KffDiag Kuf Kus KssDiag Luu L scaleX scaleXs y meanX meanXs
    cases h2 : snelsonPredict n mInd k false predictY KffDiag Kuf Kus KssDiag Luu L scaleX scaleXs y meanX meanXs with
    | error e => simp [snelsonPredict] at h2
    | ok r => exact ⟨r, rfl⟩

/- A lower-triangular matrix has the product of its diagonal as determinant. -/
theorem lowerTriangular_det {n : ℕ} {L : Matrix (Fin n) (Fin n) ℝ}
    (hTri : lowerTriangular L) : L.det = ∏ i, L i i := by
  apply Matrix.det_of_lowerTriangular
  intro i j hij
  exact hTri i j (by simpa using hij)

/- The sum of the logs of the diagonal of a Cholesky factor is half the log
determinant of the factored matrix. -/
theorem sum_log_diag_eq_half_log_det {n : ℕ} {L : Matrix (Fin n) (Fin n) ℝ}
    (hTri : lowerTriangular L) (hPos : ∀ i, 0 < L i i) :
    ∑ i, Real.log (L i i) = 0.5 * Real.log (L * Lᵀ).det := by
  have hdet : (L * Lᵀ).det = (∏ i, L i i) * (∏ i, L i i) := by
    rw [Matrix.det_mul, Matrix.det_transpose, lowerTriangular_det hTri]
  have hprod : (0 : ℝ) < ∏ i, L i i := Finset.prod_pos fun i _ => hPos i
  rw [hdet, Real.log_mul hprod.ne' hprod.ne',
    Real.log_prod _ _ fun i _ => (hPos i).ne']
  ring

/-- Claim C1: for a Gaussian likelihood with a single scalar noise variance
`s`, `Exact.log_marginal_likelihood` equals the closed-form Gaussian log
evidence `-0.5 yᵀ M⁻¹ y - 0.5 log det M - 0.5 n log 2π` of the matrix `M` the
code factorizes, namely `K(X,X) + s I` plus the jitter, with the mean-function
values subtracted from `y` first. -/
theorem exact_log_marginal_likelihood_closed_form {n : ℕ}
    (Kff : Matrix (Fin n) (Fin n) ℝ) (s jitter : ℝ) (L : Matrix (Fin n) (Fin n) ℝ)
    (y meanv : Fin n → ℝ)
    (hTri : lowerTriangular L) (hPos : ∀ i, 0 < L i i)
    (hFact : L * Lᵀ = addJitter jitter (Kff + s • 1)) :
    exactLML n L y meanv = gaussLogEvidence n (addJitter jitter (Kff + s • 1)) (y - meanv) := by
  rw [← hFact]
  simp only [exactLML, gaussLogEvidence, choleskySolve]
  rw [sum_log_diag_eq_half_log_det hTri hPos]
  ring

/-- Claim C1, witness: the theorem applied to a one-point model with unit
kernel, unit noise, zero jitter, data `y = 2` and zero mean, whose Cholesky
factor is the square root of two. -/
theorem exact_log_marginal_likelihood_closed_form_witness :
    lowerTriangular !![Real.sqrt 2] ∧ (∀ i, 0 < !![Real.sqrt 2] i i) ∧
    !![Real.sqrt 2] * !![Real.sqrt 2]ᵀ = addJitter 0 (!![(1 : ℝ)] + (1 : ℝ) • 1) ∧
    exactLML 1 !![Real.sqrt 2] ![2] ![0] =
      gaussLogEvidence 1 (addJitter 0 (!![(1 : ℝ)] + (1 : ℝ) • 1)) (![2] - ![0]) := by
  have h1 : lowerTriangular !![Real.sqrt 2] := by
    intro i j hij
    fin_cases i
    fin_cases j
    simp at hij
  have h2 : ∀ i, 0 < !![Real.sqrt 2] i i := by
    intro i
    fin_cases i
    simp [Real.sqrt_pos]
  have h3 : !![Real.sqrt 2] * !![Real.sqrt 2]ᵀ = addJitter 0 (!![(1 : ℝ)] + (1 : ℝ) • 1) := by
    ext i j
    fin_cases i
    fin_cases j
    simp [addJitter, Matrix.mul_apply, Fin.sum_univ_one, Matrix.one_apply]
    norm_num
  exact ⟨h1, h2, h3, exact_log_marginal_likelihood_closed_form !![(1 : ℝ)] 1 0 !![Real.sqrt 2]
    ![2] ![0] h1 h2 h3⟩

/-- Claim C9: `Hensman` is constructed exactly as `SparseHensman` with
`Z = None`: the non-sparse branch is forced (the sparse flag is off, `Z` is
pinned to `X`, the inducing count equals the number of data points), and
`elbo` and `predict` compute the non-sparse path of `SparseHensman` with the
data inputs in place of the inducing points. -/
theorem hensman_is_nonsparse_sparsehensman :
    ∀ (nData : ℕ) (X : NMat),
      hensmanInit nData X = sparseHensmanInit nData X none ∧
      (hensmanInit nData X).isSparse = false ∧
      (hensmanInit nData X).Z = X ∧
      (hensmanInit nData X).m = nData ∧
      (∀ (kern : ℕ → ℕ → NMat → NMat → NMat) (kernDiag : ℕ → NMat → NVec)
        (cholFn : ℕ → NMat → NMat) (triSolve : ℕ → NMat → NMat → NMat)
        (triSolveV : ℕ → NMat → NVec → NVec) (varExp : NVec → NVec → NVec → ℝ)
        (jitter : ℝ) (y meanv : NVec),
        shElbo (hensmanInit nData X) kern kernDiag cholFn triSolve triSolveV varExp jitter X y meanv =
          shElboNonSparse nData (fun _ => 0) nmatId kern cholFn varExp jitter X y meanv) ∧
      (∀ (kern : ℕ → ℕ → NMat → NMat → NMat) (kernDiag : ℕ → NMat → NVec)
        (cholFn : ℕ → NMat → NMat) (triSolve : ℕ → NMat → NMat → NMat)
        (triSolveV : ℕ → NMat → NVec → NVec) (likPredict : NVec → NVec → NVec × NVec)
        (predictY : Bool) (jitter : ℝ) (sXs : ℕ) (Xs : NMat) (meanXs : NVec),
        shPredict (hensmanInit nData X) kern kernDiag cholFn triSolve triSolveV likPredict
            predictY jitter sXs Xs meanXs =
          (let p := shPredictRawAt nData X (fun _ => 0) nmatId kern kernDiag cholFn triSolve
            triSolveV jitter sXs Xs;
           let p2 := if predictY then likPredict p.1 p.2 else p;
           (fun i => p2.1 i + meanXs i, p2.2))) := by
  intro nData X
  refine ⟨rfl, rfl, rfl, rfl, ?_, ?_⟩
  · intro kern kernDiag cholFn triSolve triSolveV varExp jitter y meanv
    rfl
  · intro kern kernDiag cholFn triSolve triSolveV likPredict predictY jitter sXs Xs meanXs
    rfl

/-- Claim C10: with `Z = None` (hence for every `Hensman`) the `Z` attribute
is a non-trainable Parameter bound to `X` that is never added to the registry,
so it is absent from the full Parameter list and from the trainable Parameter
list; the `Z` Parameter is registered exactly when explicit inducing points
were given, and `q_mu` and `q_sqrt` are registered in every case. -/
theorem sparsehensman_inducing_registration :
    (∀ (nData : ℕ) (X : NMat),
      (hensmanInit nData X).ZParam = pinnedZRec ∧
      (hensmanInit nData X).ZParam.trainable = false ∧
      (hensmanInit nData X).Z = X ∧
      (hensmanInit nData X).registered = [qmuRec, qsqrtRec] ∧
      pinnedZRec ∉ (hensmanInit nData X).registered ∧
      (∀ base : List PRec, pinnedZRec ∉ base →
        pinnedZRec ∉ modelGetParameters base (hensmanInit nData X)) ∧
      (∀ base : List PRec, pinnedZRec ∉ modelParameters base (hensmanInit nData X))) ∧
    (∀ (nData k : ℕ) (X Zm : NMat),
      (sparseHensmanInit nData X (some (k, Zm))).ZParam = inducingRec ∧
      inducingRec ∈ (sparseHensmanInit nData X (some (k, Zm))).registered) ∧
    (∀ (nData : ℕ) (X : NMat) (Zopt : Option (ℕ × NMat)),
      qmuRec ∈ (sparseHensmanInit nData X Zopt).registered ∧
      qsqrtRec ∈ (sparseHensmanInit nData X Zopt).registered) := by
  refine ⟨?_, ?_, ?_⟩
  · intro nData X
    refine ⟨rfl, rfl, rfl, rfl, ?_, ?_, ?_⟩
    · intro h
      simp [hensmanInit, sparseHensmanInit, pinnedZRec, qmuRec, qsqrtRec] at h
    · intro base hb h
      simp only [modelGetParameters, List.mem_append] at h
      rcases h with h | h
      · exact hb h
      · simp [hensmanInit, sparseHensmanInit, pinnedZRec, qmuRec, qsqrtRec] at h
    · intro base h
      simp only [modelParameters, List.mem_filter] at h
      exact absurd h.2 (by simp [pinnedZRec])
  · intro nData k X Zm
    exact ⟨rfl, by simp [sparseHensmanInit]⟩
  · intro nData X Zopt
    cases Zopt with
    | none => exact ⟨by simp [sparseHensmanInit], by simp [sparseHensmanInit]⟩
    | some z => exact ⟨by simp [sparseHensmanInit], by simp [sparseHensmanInit]⟩

/-- Claim C10, witness: the theorem applied to a concrete two-point model with
an empty base registry, in both the pinned and the explicitly-inducing
cases. -/
theorem sparsehensman_inducing_registration_witness :
    pinnedZRec ∉ modelGetParameters [] (hensmanInit 2 nmatId) ∧
    pinnedZRec ∉ modelParameters [inducingRec] (hensmanInit 2 nmatId) ∧
    inducingRec ∈ (sparseHensmanInit 2 nmatId (some (1, nmatId))).registered ∧
    qmuRec ∈ (sparseHensmanInit 2 nmatId none).registered :=
  ⟨(sparsehensman_inducing_registration.1 2 nmatId).2.2.2.2.2.1 [] (by simp),
   (sparsehensman_inducing_registration.1 2 nmatId).2.2.2.2.2.2 [inducingRec],
   (sparsehensman_inducing_registration.2.1 2 1 nmatId nmatId).2,
   (sparsehensman_inducing_registration.2.2 2 nmatId none).1⟩

/- Over the reals a Hermitian matrix equals its transpose. -/
theorem transpose_eq_of_isHermitian {n : ℕ} {A : Matrix (Fin n) (Fin n) ℝ}
    (h : A.IsHermitian) : Aᵀ = A := by
  have h2 : Aᴴ = A := h
  rwa [Matrix.conjTranspose_eq_transpose_of_trivial] at h2

/- Moving a matrix across a real dot product. -/
theorem dot_mulVec_eq {a b : ℕ} (A : Matrix (Fin a) (Fin b) ℝ) (u : Fin a → ℝ) (z : Fin b → ℝ) :
    u ⬝ᵥ (A *ᵥ z) = (Aᵀ *ᵥ u) ⬝ᵥ z := by
  rw [Matrix.dotProduct_mulVec, Matrix.mulVec_transpose]

theorem dotSelf_nonneg {n : ℕ} (x : Fin n → ℝ) : 0 ≤ x ⬝ᵥ x := by
  have h : x ⬝ᵥ x = ∑ i, x i * x i := rfl
  rw [h]
  exact Finset.sum_nonneg fun i _ => mul_self_nonneg (x i)

/- The quadratic form of a real positive semidefinite matrix, without stars. -/
theorem psd_quad {n : ℕ} {A : Matrix (Fin n) (Fin n) ℝ} (hA : A.PosSemidef) (x : Fin n → ℝ) :
    0 ≤ x ⬝ᵥ (A *ᵥ x) := by
  simpa using hA.2 x

theorem smul_one_posDef {k : ℕ} {s : ℝ} (hs : 0 < s) :
    (s • 1 : Matrix (Fin k) (Fin k) ℝ).PosDef := by
  have h : (s • 1 : Matrix (Fin k) (Fin k) ℝ) = Matrix.diagonal fun _ => s := by
    ext i j
    by_cases hij : i = j <;> simp [Matrix.one_apply, Matrix.diagonal_apply, hij]
  rw [h]
  exact Matrix.PosDef.diagonal fun _ => hs

theorem transpose_mul_self_psd {m n : ℕ} (v : Matrix (Fin m) (Fin n) ℝ) :
    (vᵀ * v).PosSemidef := by
  have h := Matrix.posSemidef_conjTranspose_mul_self v
  rwa [Matrix.conjTranspose_eq_transpose_of_trivial] at h

theorem self_mul_transpose_psd {m n : ℕ} (v : Matrix (Fin m) (Fin n) ℝ) :
    (v * vᵀ).PosSemidef := by
  have h := Matrix.posSemidef_self_mul_conjTranspose v
  rwa [Matrix.conjTranspose_eq_transpose_of_trivial] at h

theorem psd_add_smul_one_posDef {k : ℕ} {P : Matrix (Fin k) (Fin k) ℝ} (hP : P.PosSemidef)
    {s : ℝ} (hs : 0 < s) : (P + s • 1).PosDef :=
  Matrix.PosDef.posSemidef_add hP (smul_one_posDef hs)

theorem psd_trace_nonneg {n : ℕ} {A : Matrix (Fin n) (Fin n) ℝ} (hA : A.PosSemidef) :
    0 ≤ A.trace := by
  have h : ∀ i, 0 ≤ A i i := by
    intro i
    have h2 := psd_quad hA (Pi.single i 1)
    simpa [Matrix.mulVec_single, Matrix.single_dotProduct] using h2
  exact Finset.sum_nonneg fun i _ => h i

/- The trace of a product of two real positive semidefinite matrices is
nonnegative. -/
theorem trace_mul_psd_nonneg {n : ℕ} {E D : Matrix (Fin n) (Fin n) ℝ}
    (hE : E.PosSemidef) (hD : D.PosSemidef) : 0 ≤ (E * D).trace := by
  obtain ⟨C, hC⟩ := Matrix.posSemidef_iff_eq_transpose_mul_self.mp hE
  have h1 : (E * D).trace = (C * D * Cᴴ).trace := by
    rw [hC, Matrix.mul_assoc, Matrix.trace_mul_comm]
  rw [h1]
  exact psd_trace_nonneg (hD.mul_mul_conjTranspose_same C)

/- Monotonicity of the quadratic form of the inverse: enlarging a positive
definite matrix by a positive semidefinite one decreases `yᵀ M⁻¹ y`. -/
theorem quad_inv_mono {n : ℕ} {A E : Matrix (Fin n) (Fin n) ℝ}
    (hA : A.PosDef) (hE : E.PosSemidef) (y : Fin n → ℝ) :
    y ⬝ᵥ ((A + E)⁻¹ *ᵥ y) ≤ y ⬝ᵥ (A⁻¹ *ᵥ y) := by
  classical
  have hB : (A + E).PosDef := hA.add_posSemidef hE
  have hAdet : IsUnit A.det := isUnit_iff_ne_zero.mpr hA.det_pos.ne'
  have hBdet : IsUnit (A + E).det := isUnit_iff_ne_zero.mpr hB.det_pos.ne'
  set a := A⁻¹ *ᵥ y with ha
  set b := (A + E)⁻¹ *ᵥ y with hb
  have hAa : A *ᵥ a = y := by
    rw [ha, Matrix.mulVec_mulVec, Matrix.mul_nonsing_inv _ hAdet, Matrix.one_mulVec]
  have hBb : (A + E) *ᵥ b = y := by
    rw [hb, Matrix.mulVec_mulVec, Matrix.mul_nonsing_inv _ hBdet, Matrix.one_mulVec]
  have hATr : Aᵀ = A := transpose_eq_of_isHermitian hA.1
  have hkey : 0 ≤ (a - b) ⬝ᵥ (A *ᵥ (a - b)) := psd_quad hA.posSemidef (a - b)
  have hEb : 0 ≤ b ⬝ᵥ (E *ᵥ b) := psd_quad hE b
  have h1 : a ⬝ᵥ (A *ᵥ b) = y ⬝ᵥ b := by
    rw [dot_mulVec_eq, hATr, hAa]
  have h2 : b ⬝ᵥ (A *ᵥ a) = y ⬝ᵥ b := by
    rw [hAa, Matrix.dotProduct_comm]
  have h3 : a ⬝ᵥ (A *ᵥ a) = y ⬝ᵥ a := by
    rw [dot_mulVec_eq, hATr, hAa]
  have h4 : b ⬝ᵥ (A *ᵥ b) = y ⬝ᵥ b - b ⬝ᵥ (E *ᵥ b) := by
    have hAb : A *ᵥ b = y - E *ᵥ b := by
      have h5 : (A + E) *ᵥ b = A *ᵥ b + E *ᵥ b := Matrix.add_mulVec A E b
      rw [hBb] at h5
      rw [h5]
      abel
    rw [hAb, Matrix.dotProduct_sub, Matrix.dotProduct_comm b y]
  have hexp : (a - b) ⬝ᵥ (A *ᵥ (a - b)) =
      a ⬝ᵥ (A *ᵥ a) - a ⬝ᵥ (A *ᵥ b) - b ⬝ᵥ (A *ᵥ a) + b ⬝ᵥ (A *ᵥ b) := by
    simp only [Matrix.mulVec_sub, Matrix.dotProduct_sub, Matrix.sub_dotProduct]
    ring
  rw [hexp, h1, h2, h3, h4] at hkey
  linarith

/- The Schur-type residual of a positive semidefinite block kernel matrix:
`Kff - vᵀ v` with `v = Luu⁻¹ Kuf` and `Luu Luuᵀ = Kuu` is positive
semidefinite. -/
theorem kernel_residual_psd {m n : ℕ} {Kuu : Matrix (Fin m) (Fin m) ℝ}
    {Kuf : Matrix (Fin m) (Fin n) ℝ} {Kff : Matrix (Fin n) (Fin n) ℝ}
    {Luu : Matrix (Fin m) (Fin m) ℝ}
    (hgram : (Matrix.fromBlocks Kuu Kuf Kufᵀ Kff).PosSemidef)
    (hTri : lowerTriangular Luu) (hPos : ∀ i, 0 < Luu i i)
    (hFact : Luu * Luuᵀ = Kuu) :
    (Kff - (solveTri Luu Kuf)ᵀ * (solveTri Luu Kuf)).PosSemidef := by
  classical
  set v := solveTri Luu Kuf with hv
  have hLuuDet : IsUnit Luu.det := by
    rw [lowerTriangular_det hTri]
    exact isUnit_iff_ne_zero.mpr (Finset.prod_pos fun i _ => hPos i).ne'
  have hLuuTdet : IsUnit Luuᵀ.det := by rwa [Matrix.det_transpose]
  have hKuf : Luu * v = Kuf := by
    rw [hv, solveTri, ← Matrix.mul_assoc, Matrix.mul_nonsing_inv _ hLuuDet, Matrix.one_mul]
  have hKffPsd : Kff.PosSemidef := by
    have h := hgram.submatrix Sum.inr
    have he : (Matrix.fromBlocks Kuu Kuf Kufᵀ Kff).submatrix Sum.inr Sum.inr = Kff := by
      ext i j
      simp [Matrix.submatrix_apply, Matrix.fromBlocks_apply₂₂]
    rwa [he] at h
  constructor
  · have h1 : Kffᵀ = Kff := transpose_eq_of_isHermitian hKffPsd.1
    have h2 : (Kff - vᵀ * v)ᵀ = Kff - vᵀ * v := by
      rw [Matrix.transpose_sub, Matrix.transpose_mul, Matrix.transpose_transpose, h1]
    show (Kff - vᵀ * v)ᴴ = Kff - vᵀ * v
    rwa [Matrix.conjTranspose_eq_transpose_of_trivial]
  · intro x
    simp only [star_trivial]
    set w : Fin m → ℝ := -((Luuᵀ)⁻¹ *ᵥ (v *ᵥ x)) with hw
    have hwT : Luuᵀ *ᵥ w = -(v *ᵥ x) := by
      rw [hw, Matrix.mulVec_neg, Matrix.mulVec_mulVec, Matrix.mul_nonsing_inv _ hLuuTdet,
        Matrix.one_mulVec]
    have hkey := hgram.2 (Sum.elim w x)
    rw [Matrix.fromBlocks_mulVec] at hkey
    simp only [star_trivial, Sum.elim_comp_inl, Sum.elim_comp_inr,
      Matrix.sum_elim_dotProduct_sum_elim, Matrix.dotProduct_add] at hkey
    have e1 : w ⬝ᵥ (Kuu *ᵥ w) = (v *ᵥ x) ⬝ᵥ (v *ᵥ x) := by
      rw [← hFact, ← Matrix.mulVec_mulVec, dot_mulVec_eq, hwT, Matrix.neg_dotProduct,
        Matrix.dotProduct_neg, neg_neg]
    have e2 : w ⬝ᵥ (Kuf *ᵥ x) = -((v *ᵥ x) ⬝ᵥ (v *ᵥ x)) := by
      rw [← hKuf, ← Matrix.mulVec_mulVec, dot_mulVec_eq, hwT, Matrix.neg_dotProduct]
    have e3 : x ⬝ᵥ (Kufᵀ *ᵥ w) = -((v *ᵥ x) ⬝ᵥ (v *ᵥ x)) := by
      rw [dot_mulVec_eq, Matrix.transpose_transpose, ← hKuf, ← Matrix.mulVec_mulVec,
        Matrix.dotProduct_comm, dot_mulVec_eq, hwT, Matrix.neg_dotProduct]
    have e4 : x ⬝ᵥ ((Kff - vᵀ * v) *ᵥ x) = x ⬝ᵥ (Kff *ᵥ x) - (v *ᵥ x) ⬝ᵥ (v *ᵥ x) := by
      rw [Matrix.sub_mulVec, Matrix.dotProduct_sub]
      congr 1
      rw [← Matrix.mulVec_mulVec, dot_mulVec_eq, Matrix.transpose_transpose]
    rw [e1, e2, e3] at hkey
    rw [e4]
    linarith

/- The determinant of `1 + M` for positive semidefinite `M` lies between `1`
and `exp (trace M)` (eigenvalue bound `1 + t ≤ exp t`). -/
theorem psd_one_add_det_bounds {n : ℕ} {M : Matrix (Fin n) (Fin n) ℝ} (hM : M.PosSemidef) :
    1 ≤ (1 + M).det ∧ (1 + M).det ≤ Real.exp M.trace := by
  classical
  have hH : M.IsHermitian := hM.1
  set U := (hH.eigenvectorUnitary : Matrix (Fin n) (Fin n) ℝ) with hU
  have hUU : U * star U = 1 := Matrix.mem_unitaryGroup_iff.mp hH.eigenvectorUnitary.2
  have hsUU : star U * U = 1 := Matrix.mem_unitaryGroup_iff'.mp hH.eigenvectorUnitary.2
  have hdiag : M = U * Matrix.diagonal hH.eigenvalues * star U := by
    have h := hH.spectral_theorem
    rwa [RCLike.ofReal_real_eq_id, Function.id_comp] at h
  have h1M : 1 + M = U * (1 + Matrix.diagonal hH.eigenvalues) * star U := by
    have e1 : U * (1 + Matrix.diagonal hH.eigenvalues) * star U
        = U * 1 * star U + U * Matrix.diagonal hH.eigenvalues * star U := by
      rw [Matrix.mul_add, Matrix.add_mul]
    rw [e1, Matrix.mul_one, hUU, ← hdiag]
  have hdet : (1 + M).det = ∏ i, (1 + hH.eigenvalues i) := by
    rw [h1M, Matrix.det_mul, Matrix.det_mul]
    have e2 : U.det * (1 + Matrix.diagonal hH.eigenvalues).det * (star U).det
        = (1 + Matrix.diagonal hH.eigenvalues).det * (U.det * (star U).det) := by ring
    rw [e2, ← Matrix.det_mul, hUU, Matrix.det_one, mul_one, ← Matrix.diagonal_one,
      Matrix.diagonal_add, Matrix.det_diagonal]
  have htr : M.trace = ∑ i, hH.eigenvalues i := by
    conv_lhs => rw [hdiag]
    rw [Matrix.trace_mul_cycle, hsUU, Matrix.one_mul, Matrix.trace_diagonal]
  have hnneg : ∀ i, 0 ≤ hH.eigenvalues i := hM.eigenvalues_nonneg
  constructor
  · rw [hdet]
    calc (1 : ℝ) = ∏ _i : Fin n, 1 := by simp
    _ ≤ ∏ i, (1 + hH.eigenvalues i) :=
      Finset.prod_le_prod (fun i _ => by norm_num)
        (fun i _ => by have := hnneg i; linarith)
  · rw [hdet, htr]
    calc ∏ i, (1 + hH.eigenvalues i) ≤ ∏ i, Real.exp (hH.eigenvalues i) :=
        Finset.prod_le_prod (fun i _ => by have := hnneg i; linarith)
          (fun i _ => by have h := Real.add_one_le_exp (hH.eigenvalues i); linarith)
    _ = Real.exp (∑ i, hH.eigenvalues i) := (Real.exp_sum _ _).symm

/- Concavity-type bound: enlarging a positive definite matrix by a positive
semidefinite one increases the log determinant by at most `trace (E A⁻¹)`. -/
theorem log_det_add_le_trace {n : ℕ} {A E : Matrix (Fin n) (Fin n) ℝ}
    (hA : A.PosDef) (hE : E.PosSemidef) :
    Real.log (A + E).det ≤ Real.log A.det + (E * A⁻¹).trace := by
  classical
  set R := hA.posSemidef.sqrt with hRdef
  have hRpsd : R.PosSemidef := hA.posSemidef.posSemidef_sqrt
  have hRR : R * R = A := hA.posSemidef.sqrt_mul_self
  have hdetRR : R.det * R.det = A.det := by rw [← Matrix.det_mul, hRR]
  have hRdet : IsUnit R.det := by
    refine isUnit_iff_ne_zero.mpr ?_
    intro h0
    rw [h0, mul_zero] at hdetRR
    exact hA.det_pos.ne' hdetRR.symm
  have hRherm : Rᴴ = R := hRpsd.1
  have hRinvH : (R⁻¹)ᴴ = R⁻¹ := by rw [Matrix.conjTranspose_nonsing_inv, hRherm]
  set M := R⁻¹ * E * R⁻¹ with hM
  have hMpsd : M.PosSemidef := by
    have h := hE.mul_mul_conjTranspose_same (R⁻¹)
    rwa [hRinvH] at h
  have hRRinv : R * R⁻¹ = 1 := Matrix.mul_nonsing_inv _ hRdet
  have hRinvR : R⁻¹ * R = 1 := Matrix.nonsing_inv_mul _ hRdet
  have hAE : A + E = R * (1 + M) * R := by
    have e1 : R * (1 + M) * R = R * 1 * R + R * M * R := by
      rw [Matrix.mul_add, Matrix.add_mul]
    have e2 : R * M * R = E := by
      have e3 : R * (R⁻¹ * E * R⁻¹) * R = R * R⁻¹ * E * (R⁻¹ * R) := by
        simp only [Matrix.mul_assoc]
      rw [hM, e3, hRRinv, hRinvR, Matrix.one_mul, Matrix.mul_one]
    rw [e1, Matrix.mul_one, hRR, e2]
  have hbounds := psd_one_add_det_bounds hMpsd
  have hdet1M : (0 : ℝ) < (1 + M).det := lt_of_lt_of_le one_pos hbounds.1
  have hdetAE : (A + E).det = A.det * (1 + M).det := by
    rw [hAE, Matrix.det_mul, Matrix.det_mul, ← hdetRR]
    ring
  have htrM : M.trace = (E * A⁻¹).trace := by
    have hAinv : A⁻¹ = R⁻¹ * R⁻¹ := by rw [← hRR, Matrix.mul_inv_rev]
    rw [hM, Matrix.trace_mul_cycle, ← hAinv, Matrix.trace_mul_comm]
  have hlog : Real.log (1 + M).det ≤ M.trace := by
    rw [Real.log_le_iff_le_exp hdet1M]
    exact hbounds.2
  rw [hdetAE, Real.log_mul hA.det_pos.ne' hdet1M.ne', ← htrM]
  linarith

/- The matrix `s⁻¹ I - (vᵀv + s I)⁻¹` is positive semidefinite. -/
theorem smul_one_sub_inv_psd {m n : ℕ} (v : Matrix (Fin m) (Fin n) ℝ) {s : ℝ} (hs : 0 < s) :
    ((s⁻¹ • 1 : Matrix (Fin n) (Fin n) ℝ) - (vᵀ * v + s • 1)⁻¹).PosSemidef := by
  classical
  set A := vᵀ * v + s • 1 with hAdef
  have hA : A.PosDef := psd_add_smul_one_posDef (transpose_mul_self_psd v) hs
  have hAdet : IsUnit A.det := isUnit_iff_ne_zero.mpr hA.det_pos.ne'
  constructor
  · exact ((smul_one_posDef (inv_pos.mpr hs)).1).sub hA.inv.1
  · intro x
    simp only [star_trivial]
    set z := A⁻¹ *ᵥ x with hz
    have hx : A *ᵥ z = x := by
      rw [hz, Matrix.mulVec_mulVec, Matrix.mul_nonsing_inv _ hAdet, Matrix.one_mulVec]
    set p := v *ᵥ z with hp
    set q := vᵀ *ᵥ p with hq
    have hxq : x = q + s • z := by
      rw [← hx, hAdef, Matrix.add_mulVec, ← Matrix.mulVec_mulVec,
        Matrix.smul_mulVec_assoc, Matrix.one_mulVec, hq, hp]
    have hq_z : q ⬝ᵥ z = p ⬝ᵥ p := by
      rw [hq, ← dot_mulVec_eq v p z, hp]
    have hgoal : x ⬝ᵥ ((s⁻¹ • (1 : Matrix (Fin n) (Fin n) ℝ) - A⁻¹) *ᵥ x)
        = s⁻¹ * (x ⬝ᵥ x) - x ⬝ᵥ z := by
      rw [Matrix.sub_mulVec, Matrix.dotProduct_sub, ← hz, Matrix.smul_mulVec_assoc,
        Matrix.one_mulVec, Matrix.dotProduct_smul, smul_eq_mul]
    have hxx : x ⬝ᵥ x = q ⬝ᵥ q + 2 * s * (p ⬝ᵥ p) + s ^ 2 * (z ⬝ᵥ z) := by
      nth_rewrite 1 [hxq]
      nth_rewrite 1 [hxq]
      simp only [Matrix.dotProduct_add, Matrix.add_dotProduct, Matrix.dotProduct_smul,
        Matrix.smul_dotProduct, smul_eq_mul]
      rw [Matrix.dotProduct_comm z q, hq_z]
      ring
    have hxz : x ⬝ᵥ z = p ⬝ᵥ p + s * (z ⬝ᵥ z) := by
      nth_rewrite 1 [hxq]
      simp only [Matrix.add_dotProduct, Matrix.smul_dotProduct, smul_eq_mul]
      rw [hq_z]
    have hpp := dotSelf_nonneg p
    have hqq := dotSelf_nonneg q
    have hzz := dotSelf_nonneg z
    have hsinv : 0 < s⁻¹ := inv_pos.mpr hs
    rw [hgoal, hxx, hxz]
    have e1 : s⁻¹ * (q ⬝ᵥ q + 2 * s * (p ⬝ᵥ p) + s ^ 2 * (z ⬝ᵥ z)) - (p ⬝ᵥ p + s * (z ⬝ᵥ z))
        = s⁻¹ * (q ⬝ᵥ q) + p ⬝ᵥ p := by
      field_simp
      ring
    rw [e1]
    have := mul_nonneg hsinv.le hqq
    linarith

/- Log-determinant part of the Titsias bound: the two factor terms of the code
recombine into half the log determinant of `vᵀv + s I` (Weinstein–Aronszajn
identity). -/
theorem titsias_logdet_eq {m n : ℕ} (v : Matrix (Fin m) (Fin n) ℝ)
    {L : Matrix (Fin m) (Fin m) ℝ} {s : ℝ} (hs : 0 < s)
    (hTri : lowerTriangular L) (hPos : ∀ i, 0 < L i i)
    (hL : L * Lᵀ = s⁻¹ • (v * vᵀ) + 1) :
    (∑ i, Real.log (L i i)) + 0.5 * n * Real.log s
      = 0.5 * Real.log (vᵀ * v + s • 1).det := by
  have hdetA : (vᵀ * v + s • 1).det = s ^ n * (L * Lᵀ).det := by
    have e1 : vᵀ * v + s • (1 : Matrix (Fin n) (Fin n) ℝ) = s • (s⁻¹ • (vᵀ * v) + 1) := by
      rw [smul_add, smul_smul, mul_inv_cancel₀ hs.ne', one_smul]
    rw [e1, Matrix.det_smul, Fintype.card_fin]
    congr 1
    rw [hL]
    have e2 : s⁻¹ • (vᵀ * v) = vᵀ * (s⁻¹ • v) := by rw [Matrix.mul_smul]
    have e3 : s⁻¹ • (v * vᵀ) = (s⁻¹ • v) * vᵀ := by rw [Matrix.smul_mul]
    rw [e2, e3, add_comm _ (1 : Matrix (Fin n) (Fin n) ℝ),
      add_comm _ (1 : Matrix (Fin m) (Fin m) ℝ), Matrix.det_one_add_mul_comm]
  have hdet2 : (L * Lᵀ).det = (∏ i, L i i) * (∏ i, L i i) := by
    rw [Matrix.det_mul, Matrix.det_transpose, lowerTriangular_det hTri]
  have hprod : (0 : ℝ) < ∏ i, L i i := Finset.prod_pos fun i _ => hPos i
  rw [hdetA, hdet2, Real.log_mul (pow_pos hs n).ne' (mul_pos hprod hprod).ne',
    Real.log_mul hprod.ne' hprod.ne', Real.log_pow,
    Real.log_prod _ _ fun i _ => (hPos i).ne']
  ring

/- Quadratic part of the Titsias bound: the data term and the `c` correction
of the code recombine into the quadratic form of `(vᵀv + s I)⁻¹`
(Sherman–Morrison–Woodbury identity). -/
theorem titsias_quad_eq {m n : ℕ} (v : Matrix (Fin m) (Fin n) ℝ)
    {L : Matrix (Fin m) (Fin m) ℝ} {s : ℝ} (hs : 0 < s)
    (hL : L * Lᵀ = s⁻¹ • (v * vᵀ) + 1) (y2 : Fin n → ℝ) :
    0.5 * (y2 ⬝ᵥ y2) / s
      - 0.5 * ((s⁻¹ • (L⁻¹ *ᵥ (v *ᵥ y2))) ⬝ᵥ (s⁻¹ • (L⁻¹ *ᵥ (v *ᵥ y2))))
      = 0.5 * (y2 ⬝ᵥ ((vᵀ * v + s • 1)⁻¹ *ᵥ y2)) := by
  classical
  set W := v * vᵀ + s • 1 with hW
  have hWpd : W.PosDef := psd_add_smul_one_posDef (self_mul_transpose_psd v) hs
  have hWdet : IsUnit W.det := isUnit_iff_ne_zero.mpr hWpd.det_pos.ne'
  have hWWinv : W * W⁻¹ = 1 := Matrix.mul_nonsing_inv _ hWdet
  have hLLT : L * Lᵀ = s⁻¹ • W := by
    rw [hL, hW, smul_add, smul_smul, inv_mul_cancel₀ hs.ne', one_smul]
  have hLLTinv : (L * Lᵀ)⁻¹ = s • W⁻¹ := by
    apply Matrix.inv_eq_right_inv
    rw [hLLT, Matrix.smul_mul, Matrix.mul_smul, hWWinv, smul_smul,
      inv_mul_cancel₀ hs.ne', one_smul]
  set t := v *ᵥ y2 with ht
  have hcc : (s⁻¹ • (L⁻¹ *ᵥ t)) ⬝ᵥ (s⁻¹ • (L⁻¹ *ᵥ t)) = s⁻¹ * (t ⬝ᵥ (W⁻¹ *ᵥ t)) := by
    rw [Matrix.smul_dotProduct, Matrix.dotProduct_smul, smul_eq_mul, smul_eq_mul,
      dot_mulVec_eq L⁻¹ (L⁻¹ *ᵥ t) t, Matrix.mulVec_mulVec,
      Matrix.transpose_nonsing_inv, ← Matrix.mul_inv_rev, hLLTinv,
      Matrix.smul_mulVec_assoc, Matrix.smul_dotProduct, smul_eq_mul,
      Matrix.dotProduct_comm]
    field_simp
  have hAinvF : (vᵀ * v + s • 1)⁻¹ = s⁻¹ • (1 - vᵀ * W⁻¹ * v) := by
    apply Matrix.inv_eq_right_inv
    rw [Matrix.mul_smul, Matrix.mul_sub, Matrix.mul_one, Matrix.add_mul]
    have h1 : (vᵀ * v) * (vᵀ * W⁻¹ * v) = vᵀ * (v * vᵀ * W⁻¹) * v := by
      simp only [Matrix.mul_assoc]
    have h2 : (s • 1 : Matrix (Fin n) (Fin n) ℝ) * (vᵀ * W⁻¹ * v)
        = vᵀ * ((s • 1 : Matrix (Fin m) (Fin m) ℝ) * W⁻¹) * v := by
      simp only [Matrix.smul_mul, Matrix.mul_smul, Matrix.one_mul]
    rw [h1, h2, ← Matrix.add_mul, ← Matrix.mul_add, ← Matrix.add_mul, ← hW, hWWinv,
      Matrix.mul_one]
    have e4 : vᵀ * v + s • (1 : Matrix (Fin n) (Fin n) ℝ) - vᵀ * v = s • 1 := by abel
    rw [e4, smul_smul, inv_mul_cancel₀ hs.ne', one_smul]
  have hq : y2 ⬝ᵥ ((vᵀ * v + s • 1)⁻¹ *ᵥ y2) = s⁻¹ * (y2 ⬝ᵥ y2 - t ⬝ᵥ (W⁻¹ *ᵥ t)) := by
    rw [hAinvF, Matrix.smul_mulVec_assoc, Matrix.dotProduct_smul, smul_eq_mul,
      Matrix.sub_mulVec, Matrix.one_mulVec, Matrix.dotProduct_sub]
    congr 2
    rw [← Matrix.mulVec_mulVec, ← Matrix.mulVec_mulVec,
      dot_mulVec_eq vᵀ y2 (W⁻¹ *ᵥ (v *ᵥ y2)), Matrix.transpose_transpose, ht]
  rw [hcc, hq]
  field_simp
  ring

/- `Titsias.elbo` in closed Gaussian form: with the factor hypotheses of the
two `_cholesky` calls and writing `v = solve_triangular(Luu, Kuf)`, the code's
value equals `log N(y | 0, vᵀv + s I)` minus the trace correction. -/
theorem titsiasELBO_canonical {n m : ℕ} (KffDiag : Fin n → ℝ)
    (Kuf : Matrix (Fin m) (Fin n) ℝ) (Luu L : Matrix (Fin m) (Fin m) ℝ)
    {s : ℝ} (hs : 0 < s) (y meanv : Fin n → ℝ)
    (hLTri : lowerTriangular L) (hLPos : ∀ i, 0 < L i i)
    (hLfac : L * Lᵀ = s⁻¹ • (solveTri Luu Kuf * (solveTri Luu Kuf)ᵀ) + 1) :
    titsiasELBO n m KffDiag Kuf Luu L s y meanv
      = -(0.5 * n * Real.log (2 * Real.pi))
        - 0.5 * Real.log ((solveTri Luu Kuf)ᵀ * solveTri Luu Kuf + s • 1).det
        - 0.5 * ((y - meanv) ⬝ᵥ
            (((solveTri Luu Kuf)ᵀ * solveTri Luu Kuf + s • 1)⁻¹ *ᵥ (y - meanv)))
        - 0.5 * ((∑ i, KffDiag i)
            - ((solveTri Luu Kuf)ᵀ * solveTri Luu Kuf).trace) / s := by
  have h1 := titsias_logdet_eq (solveTri Luu Kuf) hs hLTri hLPos hLfac
  have h2 := titsias_quad_eq (solveTri Luu Kuf) hs hLfac (y - meanv)
  have h3 : (solveTri Luu Kuf * (solveTri Luu Kuf)ᵀ).trace
      = ((solveTri Luu Kuf)ᵀ * solveTri Luu Kuf).trace := Matrix.trace_mul_comm _ _
  simp only [titsiasELBO]
  rw [h3]
  linarith

/- `Exact.log_marginal_likelihood` in closed Gaussian form of the factored
matrix. -/
theorem exactLML_canonical {n : ℕ} (Le : Matrix (Fin n) (Fin n) ℝ) (y meanv : Fin n → ℝ)
    (hTri : lowerTriangular Le) (hPos : ∀ i, 0 < Le i i) :
    exactLML n Le y meanv = -(0.5 * n * Real.log (2 * Real.pi))
      - 0.5 * Real.log (Le * Leᵀ).det
      - 0.5 * ((y - meanv) ⬝ᵥ ((Le * Leᵀ)⁻¹ *ᵥ (y - meanv))) := by
  simp only [exactLML, choleskySolve]
  rw [sum_log_diag_eq_half_log_det hTri hPos]

/-- Claim C2 (amended): for the same data, kernel evaluations and Gaussian
noise variance `s`, and with no jitter inflation of the factorized matrices
(the code always inflates by a strictly positive jitter; see the
counterexample), `Titsias.elbo()` is at most `Exact.log_marginal_likelihood()`:
the trace-correction penalty `-½ (tr Kff - tr Q)/s` of the code makes the
variational bound dominate the added log-determinant and quadratic terms.  The
kernel is valid: the joint Gram matrix over the inducing and data inputs is
positive semidefinite. -/
theorem titsias_elbo_le_exact_lml_no_jitter {n m : ℕ}
    (Kff : Matrix (Fin n) (Fin n) ℝ) (Kuf : Matrix (Fin m) (Fin n) ℝ)
    (Kuu : Matrix (Fin m) (Fin m) ℝ) (Luu L : Matrix (Fin m) (Fin m) ℝ)
    (Le : Matrix (Fin n) (Fin n) ℝ) (s : ℝ) (y meanv : Fin n → ℝ)
    (hs : 0 < s)
    (hgram : (Matrix.fromBlocks Kuu Kuf Kufᵀ Kff).PosSemidef)
    (hLuuTri : lowerTriangular Luu) (hLuuPos : ∀ i, 0 < Luu i i)
    (hLuu : Luu * Luuᵀ = Kuu)
    (hLTri : lowerTriangular L) (hLPos : ∀ i, 0 < L i i)
    (hLfac : L * Lᵀ = s⁻¹ • (solveTri Luu Kuf * (solveTri Luu Kuf)ᵀ) + 1)
    (hLeTri : lowerTriangular Le) (hLePos : ∀ i, 0 < Le i i)
    (hLe : Le * Leᵀ = Kff + s • 1) :
    titsiasELBO n m (fun i => Kff i i) Kuf Luu L s y meanv ≤ exactLML n Le y meanv := by
  classical
  have hEpsd : (Kff - (solveTri Luu Kuf)ᵀ * solveTri Luu Kuf).PosSemidef :=
    kernel_residual_psd hgram hLuuTri hLuuPos hLuu
  have hApd : ((solveTri Luu Kuf)ᵀ * solveTri Luu Kuf + s • 1).PosDef :=
    psd_add_smul_one_posDef (transpose_mul_self_psd (solveTri Luu Kuf)) hs
  have hAE : (solveTri Luu Kuf)ᵀ * solveTri Luu Kuf + s • 1
      + (Kff - (solveTri Luu Kuf)ᵀ * solveTri Luu Kuf) = Kff + s • 1 := by
    abel
  have hquad : (y - meanv) ⬝ᵥ ((Kff + s • 1)⁻¹ *ᵥ (y - meanv))
      ≤ (y - meanv) ⬝ᵥ
        (((solveTri Luu Kuf)ᵀ * solveTri Luu Kuf + s • 1)⁻¹ *ᵥ (y - meanv)) := by
    have h := quad_inv_mono hApd hEpsd (y - meanv)
    rwa [hAE] at h
  have hEtr : (Kff - (solveTri Luu Kuf)ᵀ * solveTri Luu Kuf).trace
      = Kff.trace - ((solveTri Luu Kuf)ᵀ * solveTri Luu Kuf).trace :=
    Matrix.trace_sub _ _
  have hlogdet : Real.log (Kff + s • 1).det
      ≤ Real.log ((solveTri Luu Kuf)ᵀ * solveTri Luu Kuf + s • 1).det
        + (Kff.trace - ((solveTri Luu Kuf)ᵀ * solveTri Luu Kuf).trace) / s := by
    have h := log_det_add_le_trace hApd hEpsd
    rw [hAE] at h
    have hD := smul_one_sub_inv_psd (solveTri Luu Kuf) hs
    have htr := trace_mul_psd_nonneg hEpsd hD
    have hexp : (Kff - (solveTri Luu Kuf)ᵀ * solveTri Luu Kuf)
          * ((s⁻¹ • 1 : Matrix (Fin n) (Fin n) ℝ)
            - ((solveTri Luu Kuf)ᵀ * solveTri Luu Kuf + s • 1)⁻¹)
        = s⁻¹ • (Kff - (solveTri Luu Kuf)ᵀ * solveTri Luu Kuf)
          - (Kff - (solveTri Luu Kuf)ᵀ * solveTri Luu Kuf)
            * ((solveTri Luu Kuf)ᵀ * solveTri Luu Kuf + s • 1)⁻¹ := by
      rw [Matrix.mul_sub, Matrix.mul_smul, Matrix.mul_one]
    rw [hexp, Matrix.trace_sub, Matrix.trace_smul, smul_eq_mul, hEtr] at htr
    have hdivinv : (Kff.trace - ((solveTri Luu Kuf)ᵀ * solveTri Luu Kuf).trace) / s
        = s⁻¹ * (Kff.trace - ((solveTri Luu Kuf)ᵀ * solveTri Luu Kuf).trace) := by
      ring
    rw [hdivinv]
    linarith
  rw [titsiasELBO_canonical (fun i => Kff i i) Kuf Luu L hs y meanv hLTri hLPos hLfac,
    exactLML_canonical Le y meanv hLeTri hLePos, hLe]
  have hKfftr : (∑ i, Kff i i) = Kff.trace := rfl
  rw [hKfftr]
  have hhalf : 0.5 * (Kff.trace - ((solveTri Luu Kuf)ᵀ * solveTri Luu Kuf).trace) / s
      = 0.5 * ((Kff.trace - ((solveTri Luu Kuf)ᵀ * solveTri Luu Kuf).trace) / s) := by
    ring
  rw [hhalf]
  linarith

/- Evaluation helpers for one-by-one matrices. -/
theorem oneMat_eq : !![(1 : ℝ)] = 1 := by
  ext i j
  fin_cases i
  fin_cases j
  simp [Matrix.one_apply]

theorem fin1_mul (a b : ℝ) : !![a] * !![b] = !![a * b] := by
  ext i j
  fin_cases i
  fin_cases j
  simp [Matrix.mul_apply, Fin.sum_univ_one]

theorem fin1_transpose (a : ℝ) : !![a]ᵀ = !![a] := by
  ext i j
  fin_cases i
  fin_cases j
  simp

theorem fin1_add (a b : ℝ) : !![a] + !![b] = !![a + b] := by
  ext i j
  fin_cases i
  fin_cases j
  simp

theorem fin1_inv (a : ℝ) (ha : a ≠ 0) : !![a]⁻¹ = !![a⁻¹] := by
  apply Matrix.inv_eq_right_inv
  rw [fin1_mul, mul_inv_cancel₀ ha, oneMat_eq]

theorem fin1_lowerTriangular (L : Matrix (Fin 1) (Fin 1) ℝ) : lowerTriangular L := by
  intro i j hij
  fin_cases i
  fin_cases j
  simp at hij

theorem sqrt_fin1_mul_self {a : ℝ} (ha : 0 ≤ a) :
    !![Real.sqrt a] * !![Real.sqrt a]ᵀ = !![a] := by
  rw [fin1_transpose, fin1_mul, Real.mul_self_sqrt ha]

/- The all-ones two-by-two block Gram matrix (constant unit kernel on a single
input used both as data point and inducing point) is positive semidefinite. -/
theorem gram_ones_psd :
    (Matrix.fromBlocks !![(1 : ℝ)] !![(1 : ℝ)] (!![(1 : ℝ)])ᵀ !![(1 : ℝ)]).PosSemidef := by
  constructor
  · show _ᴴ = _
    rw [Matrix.conjTranspose_eq_transpose_of_trivial]
    ext i j
    rcases i with i | i <;> rcases j with j | j <;> fin_cases i <;> fin_cases j <;>
      simp [Matrix.fromBlocks, Matrix.transpose_apply]
  · intro x
    simp only [star_trivial]
    have hexp : x ⬝ᵥ ((Matrix.fromBlocks !![(1 : ℝ)] !![(1 : ℝ)] (!![(1 : ℝ)])ᵀ !![(1 : ℝ)]) *ᵥ x)
        = (x (Sum.inl 0) + x (Sum.inr 0)) * (x (Sum.inl 0) + x (Sum.inr 0)) := by
      simp [Matrix.dotProduct, Matrix.mulVec, Fintype.sum_sum_type, Fin.sum_univ_one,
        Matrix.fromBlocks, Matrix.transpose_apply]
      ring
    rw [hexp]
    exact mul_self_nonneg _

/- The arithmetic core of the jitter counterexample:
`log(3/2)/2 + 1/4 < log 2`, equivalently `exp(1/2) < 8/3`. -/
theorem log_arith_gap : Real.log (3 / 2) / 2 + 1 / 4 < Real.log 2 := by
  have h2 : Real.exp (1 / 2 : ℝ) * Real.exp (1 / 2 : ℝ) = Real.exp 1 := by
    rw [← Real.exp_add]
    norm_num
  have h1 : Real.exp (1 / 2 : ℝ) < 8 / 3 := by
    nlinarith [Real.exp_one_lt_d9, Real.exp_pos (1 / 2 : ℝ)]
  have h3 : (1 / 2 : ℝ) < Real.log (8 / 3) := (Real.lt_log_iff_exp_lt (by norm_num)).mpr h1
  have h4 : Real.log (8 / 3 : ℝ) = 3 * Real.log 2 - Real.log 3 := by
    rw [show (8 : ℝ) / 3 = 2 ^ 3 / 3 by norm_num,
      Real.log_div (by norm_num) (by norm_num), Real.log_pow]
    push_cast
    ring
  have h5 : Real.log (3 / 2 : ℝ) = Real.log 3 - Real.log 2 :=
    Real.log_div (by norm_num) (by norm_num)
  rw [h4] at h3
  rw [h5]
  linarith

theorem fin1_smul (c a : ℝ) : c • !![a] = !![c * a] := by
  ext i j
  fin_cases i
  fin_cases j
  simp

theorem meanDiag_fin1 (a : ℝ) : meanDiag !![a] = a := by
  simp [meanDiag, Fin.sum_univ_one]

theorem addJitter_one_one : addJitter 1 !![(1 : ℝ)] = !![(2 : ℝ)] := by
  rw [addJitter, meanDiag_fin1, mul_one, one_smul,
    show ((1 : Matrix (Fin 1) (Fin 1) ℝ)) = !![(1 : ℝ)] from oneMat_eq.symm, fin1_add]
  norm_num

theorem noise_one_one : !![(1 : ℝ)] + (1 : ℝ) • 1 = !![(2 : ℝ)] := by
  rw [one_smul, show ((1 : Matrix (Fin 1) (Fin 1) ℝ)) = !![(1 : ℝ)] from oneMat_eq.symm,
    fin1_add]
  norm_num

theorem addJitter_one_two : addJitter 1 (!![(1 : ℝ)] + (1 : ℝ) • 1) = !![(4 : ℝ)] := by
  rw [noise_one_one, addJitter, meanDiag_fin1, one_mul,
    show ((2 : ℝ) • (1 : Matrix (Fin 1) (Fin 1) ℝ)) = !![(2 : ℝ)] by
      rw [show ((1 : Matrix (Fin 1) (Fin 1) ℝ)) = !![(1 : ℝ)] from oneMat_eq.symm, fin1_smul]
      norm_num,
    fin1_add]
  norm_num

theorem solveTri_sqrt2_one :
    solveTri !![Real.sqrt 2] !![(1 : ℝ)] = !![(Real.sqrt 2)⁻¹] := by
  rw [solveTri, oneMat_eq, mul_one,
    fin1_inv _ (Real.sqrt_pos.mpr (by norm_num : (0 : ℝ) < 2)).ne']

theorem sqrt2_inv_sq :
    !![(Real.sqrt 2)⁻¹] * (!![(Real.sqrt 2)⁻¹])ᵀ = !![(2 : ℝ)⁻¹] := by
  rw [fin1_transpose, fin1_mul, ← mul_inv, Real.mul_self_sqrt (by norm_num : (0 : ℝ) ≤ 2)]

theorem titsias_elbo_jitter_value :
    titsiasELBO 1 1 (fun i => !![(1 : ℝ)] i i) !![(1 : ℝ)] !![Real.sqrt 2]
        !![Real.sqrt (3 / 2)] 1 0 0
      = -(0.5 * 1 * Real.log (2 * Real.pi)) - Real.log (3 / 2) / 2 - 1 / 4 := by
  have hy : ((0 : Fin 1 → ℝ) - 0) = 0 := by simp
  simp only [titsiasELBO, hy, Matrix.mulVec_zero, smul_zero, Matrix.dotProduct_zero,
    solveTri_sqrt2_one, sqrt2_inv_sq, Matrix.trace_fin_one, Fin.sum_univ_one,
    Real.log_one, Nat.cast_one]
  rw [show !![(Real.sqrt (3 / 2))] 0 0 = Real.sqrt (3 / 2) by simp,
    show !![(1 : ℝ)] 0 0 = 1 by simp,
    show !![(2 : ℝ)⁻¹] 0 0 = (2 : ℝ)⁻¹ by simp,
    Real.log_sqrt (by norm_num : (0 : ℝ) ≤ 3 / 2)]
  norm_num

theorem exact_lml_jitter_value :
    exactLML 1 !![(2 : ℝ)] 0 0 = -(0.5 * 1 * Real.log (2 * Real.pi)) - Real.log 2 := by
  have hy : ((0 : Fin 1 → ℝ) - 0) = 0 := by simp
  simp only [exactLML, choleskySolve, hy, Matrix.mulVec_zero, Matrix.dotProduct_zero,
    Fin.sum_univ_one, Nat.cast_one]
  rw [show !![(2 : ℝ)] 0 0 = 2 by simp]
  ring

/-- Claim C2, counterexample: the claim as stated fails on the code because of
the mandatory jitter inflation inside `_cholesky`.  At the concrete one-point
instance below (constant unit kernel, inducing point equal to the data point,
`y = 0`, zero mean, noise variance `1`, jitter `1`), every condition of the
claim holds — the joint Gram matrix is positive semidefinite and the three
Cholesky factors factor exactly the matrices the code builds, jitter included —
yet `Exact.log_marginal_likelihood()` is strictly below `Titsias.elbo()`. -/
theorem titsias_elbo_exceeds_exact_lml_with_jitter :
    (0 : ℝ) < 1 ∧
    (Matrix.fromBlocks !![(1 : ℝ)] !![(1 : ℝ)] (!![(1 : ℝ)])ᵀ !![(1 : ℝ)]).PosSemidef ∧
    lowerTriangular !![Real.sqrt 2] ∧ (∀ i, 0 < !![Real.sqrt 2] i i) ∧
    !![Real.sqrt 2] * !![Real.sqrt 2]ᵀ = addJitter 1 !![(1 : ℝ)] ∧
    lowerTriangular !![Real.sqrt (3 / 2)] ∧ (∀ i, 0 < !![Real.sqrt (3 / 2)] i i) ∧
    !![Real.sqrt (3 / 2)] * !![Real.sqrt (3 / 2)]ᵀ
      = (1 : ℝ)⁻¹ • (solveTri !![Real.sqrt 2] !![(1 : ℝ)]
          * (solveTri !![Real.sqrt 2] !![(1 : ℝ)])ᵀ) + 1 ∧
    lowerTriangular !![(2 : ℝ)] ∧ (∀ i, 0 < !![(2 : ℝ)] i i) ∧
    !![(2 : ℝ)] * !![(2 : ℝ)]ᵀ = addJitter 1 (!![(1 : ℝ)] + (1 : ℝ) • 1) ∧
    exactLML 1 !![(2 : ℝ)] 0 0
      < titsiasELBO 1 1 (fun i => !![(1 : ℝ)] i i) !![(1 : ℝ)] !![Real.sqrt 2]
          !![Real.sqrt (3 / 2)] 1 0 0 := by
  refine ⟨by norm_num, gram_ones_psd, fin1_lowerTriangular _, ?_, ?_,
    fin1_lowerTriangular _, ?_, ?_, fin1_lowerTriangular _, ?_, ?_, ?_⟩
  · intro i
    fin_cases i
    simp
  · rw [sqrt_fin1_mul_self (by norm_num : (0 : ℝ) ≤ 2), addJitter_one_one]
  · intro i
    fin_cases i
    simp
  · rw [sqrt_fin1_mul_self (by norm_num : (0 : ℝ) ≤ 3 / 2), solveTri_sqrt2_one, sqrt2_inv_sq,
      inv_one, one_smul, show ((1 : Matrix (Fin 1) (Fin 1) ℝ)) = !![(1 : ℝ)] from oneMat_eq.symm,
      fin1_add]
    norm_num
  · intro i
    fin_cases i
    simp
  · rw [fin1_transpose, fin1_mul, addJitter_one_two]
    norm_num
  · rw [exact_lml_jitter_value, titsias_elbo_jitter_value]
    have h := log_arith_gap
    linarith

/-- Claim C2 (amended), witness: the bound theorem applied at the same
one-point instance with no jitter: `Luu = 1` factors `Kuu = 1`,
`L = Le = sqrt 2` factor `v vᵀ + 1` and `Kff + 1`. -/
theorem titsias_elbo_le_exact_lml_no_jitter_witness :
    titsiasELBO 1 1 (fun i => !![(1 : ℝ)] i i) !![(1 : ℝ)] !![(1 : ℝ)] !![Real.sqrt 2] 1 0 0
      ≤ exactLML 1 !![Real.sqrt 2] 0 0 := by
  have hv1 : solveTri !![(1 : ℝ)] !![(1 : ℝ)] = !![(1 : ℝ)] := by
    rw [solveTri, oneMat_eq, inv_one, one_mul]
  refine titsias_elbo_le_exact_lml_no_jitter !![(1 : ℝ)] !![(1 : ℝ)] !![(1 : ℝ)] !![(1 : ℝ)]
    !![Real.sqrt 2] !![Real.sqrt 2] 1 0 0 (by norm_num) gram_ones_psd
    (fin1_lowerTriangular _) ?_ ?_ (fin1_lowerTriangular _) ?_ ?_
    (fin1_lowerTriangular _) ?_ ?_
  · intro i
    fin_cases i
    simp
  · rw [fin1_transpose, fin1_mul]
    norm_num
  · intro i
    fin_cases i
    simp
  · rw [hv1, sqrt_fin1_mul_self (by norm_num : (0 : ℝ) ≤ 2), fin1_transpose, fin1_mul,
      inv_one, one_smul, mul_one,
      show ((1 : Matrix (Fin 1) (Fin 1) ℝ)) = !![(1 : ℝ)] from oneMat_eq.symm, fin1_add]
    norm_num
  · intro i
    fin_cases i
    simp
  · rw [sqrt_fin1_mul_self (by norm_num : (0 : ℝ) ≤ 2), one_smul,
      show ((1 : Matrix (Fin 1) (Fin 1) ℝ)) = !![(1 : ℝ)] from oneMat_eq.symm, fin1_add]
    norm_num
